import Mathlib

/-!
Verification of the directive-parsing and position-reconciliation engine of the
`twoslashes` repository.  Source files are embedded shallowly: strings become
`List Char`, JS numbers holding offsets become `Nat` (or `Int` where a sentinel
`-1` can occur), JS `Array.prototype.sort` with a comparator becomes
`List.insertionSort` with the corresponding total relation (ES2019 sorts are
stable; insertion sort is stable), and thrown `TwoslashError`s become `Except`.
All definitions are translated from `src/unnamed/part_001` (the `utils` module)
and `src/packages/twoslash/src/core.ts` unless their doc comment says otherwise.
-/

namespace Twoslashes

/-- Range of offsets, `[start, end)` half-open per the spec's data model.
Embeds the `Range` tuple type `[start: number, end: number]`. -/
abbrev Range : Type := Nat × Nat

/-- Embeds `isInRange` (part_001 line 78): `range[0] <= index && index <= range[1]`. -/
def isInRange (index : Nat) (range : Range) : Bool :=
  range.1 ≤ index && index ≤ range.2

/-- Embeds `isInRanges` (part_001 line 82): `ranges.find(range => isInRange(index, range))`. -/
def isInRanges (index : Nat) (ranges : List Range) : Option Range :=
  ranges.find? (fun range => isInRange index range)

/-- Comparator relation of the JS sort `(a, b) => a[0] - b[0]`
(part_001 line 94): ascending by range start. -/
def startLe (a b : Range) : Prop := a.1 ≤ b.1

instance : DecidableRel startLe := fun a b => inferInstanceAs (Decidable (a.1 ≤ b.1))

instance : IsTotal Range startLe := ⟨fun a b => Nat.le_total a.1 b.1⟩

instance : IsTrans Range startLe := ⟨fun _ _ _ h h' => Nat.le_trans h h'⟩

/-- Coalescing loop of `mergeRanges` (part_001 lines 95-102) on the sorted
list, carrying the last range of the growing `merged` array as `cur`:
`if (last && last[1] >= range[0]) last[1] = Math.max(last[1], range[1])
else merged.push(range)`. -/
def mergeAccum : Range → List Range → List Range
  | cur, [] => [cur]
  | cur, r :: rs =>
    if r.1 ≤ cur.2 then mergeAccum (cur.1, max cur.2 r.2) rs
    else cur :: mergeAccum r rs

/-- Embeds `mergeRanges` (part_001 lines 93-104): sort ascending by start,
then coalesce any range whose start is ≤ the previous range's end. -/
def mergeRanges (ranges : List Range) : List Range :=
  match List.insertionSort startLe ranges with
  | [] => []
  | r :: rs => mergeAccum r rs

/-- Positioned record as consumed by `removeCodeRanges`: the `NodeStartLength`
interface `{ start: number, length: number }`.  `start` is `Int` because the
algorithm writes the sentinel `-1` into it. -/
structure NodeStartLength where
  start : Int
  length : Int
deriving DecidableEq, Repr

/-- Record update performed by `removeCodeRanges` for one removed range
(part_001 lines 221-233), exactly as written in the source. -/
def removeUpdateNode (s e : Nat) (node : NodeStartLength) : NodeStartLength :=
  if node.start + node.length ≤ (s : Int) then node
  else if node.start < (e : Int) then { node with start := -1 }
  else { node with start := node.start - ((e - s : Nat) : Int) }

/-- Comparator relation of the JS sort `(a, b) => b[0] - a[0]`
(part_001 line 215): descending by range start. -/
def startGe (a b : Range) : Prop := b.1 ≤ a.1

instance : DecidableRel startGe := fun a b => inferInstanceAs (Decidable (b.1 ≤ a.1))

instance : IsTotal Range startGe := ⟨fun a b => Nat.le_total b.1 a.1⟩

instance : IsTrans Range startGe := ⟨fun _ _ _ h h' => Nat.le_trans h' h⟩

/-- Merged removal ranges sorted descending by start, as computed at
part_001 lines 214-215: `mergeRanges(removals).sort((a, b) => b[0] - a[0])`. -/
def sortedRemovalRanges (removals : List Range) : List Range :=
  List.insertionSort startGe (mergeRanges removals)

/-- Result record of `removeCodeRanges`. -/
structure RemovedResult where
  code : List Char
  removals : List Range
  nodes : List NodeStartLength
deriving DecidableEq, Repr

/-- Embeds `removeCodeRanges` (part_001 lines 210-241).  The loop body
splices each range out of the text
(`outputCode.slice(0, remove[0]) + outputCode.slice(remove[1])`) and updates
every node via the three-way comparison of lines 221-233. -/
def removeCodeRanges (code : List Char) (removals : List Range)
    (nodes : List NodeStartLength) : RemovedResult :=
  let ranges := sortedRemovalRanges removals
  let out := ranges.foldl
    (fun (acc : List Char × List NodeStartLength) remove =>
      (acc.1.take remove.1 ++ acc.1.drop remove.2,
       acc.2.map (removeUpdateNode remove.1 remove.2)))
    (code, nodes)
  ⟨out.1, ranges, out.2⟩

/-- Modelled from the spec: "For each removed range `[s, e)`: ... if
`record.start + record.length ≤ s`, it is unaffected; if `record.start < e`,
mark it invalidated (`start = -1`); otherwise shift
`record.start -= (e - s)`" — stated with the spec's integer subtraction
`e - s` rather than the source's natural-number difference. -/
def specUpdateRecord (s e : Nat) (node : NodeStartLength) : NodeStartLength :=
  if node.start + node.length ≤ (s : Int) then node
  else if node.start < (e : Int) then { node with start := -1 }
  else { node with start := node.start - ((e : Int) - (s : Int)) }

/-- Line/character coordinate pair; embeds the `Position` interface. -/
structure Position where
  line : Nat
  character : Nat
deriving DecidableEq, Repr

/-- Decomposition of the text produced by
`Array.from(code.matchAll(/.*?($|\n)/g)).map(match => match[0])`
(part_001 line 124): lazy matching up to each `\n` (kept) or to the end of the
string, plus the final empty match of `$` at the end of the string.  The
accumulator holds the current line reversed. -/
def jsLinesAux : List Char → List Char → List (List Char)
  | cur, [] => if cur = [] then [[]] else [cur.reverse, []]
  | cur, c :: rest =>
    if c = '\n' then (cur.reverse ++ ['\n']) :: jsLinesAux [] rest
    else jsLinesAux (c :: cur) rest

/-- Lines of the text including trailing terminators, as computed at
part_001 line 124. -/
def jsLines (code : List Char) : List (List Char) :=
  jsLinesAux [] code

/-- Walking loop of `indexToPos` (part_001 lines 126-136): subtract line
lengths until the residual character offset fits in the current line. -/
def indexToPosGo : List (List Char) → Nat → Nat → Position
  | [], line, character => ⟨line, character⟩
  | l :: ls, line, character =>
    if character < l.length then ⟨line, character⟩
    else indexToPosGo ls (line + 1) (character - l.length)

/-- Converter record returned by `createPositionConverter`
(part_001 lines 152-157). -/
structure PositionConverter where
  lines : List (List Char)
  indexToPos : Nat → Position
  posToIndex : Nat → Nat → Nat
  getIndexOfLineAbove : Nat → Nat

/-- Embeds `createPositionConverter` (part_001 lines 123-158).  Note that
`posToIndex` sums the lengths of `lines[0 .. line-2]` only — the source loop
is `for (let i = 0; i < line - 1; i++)` — and then adds `character`. -/
def createPositionConverter (code : List Char) : PositionConverter :=
  let lines := jsLines code
  let indexToPos := fun index => indexToPosGo lines 0 index
  let posToIndex := fun line character =>
    ((lines.take (line - 1)).map List.length).sum + character
  { lines := lines
    indexToPos := indexToPos
    posToIndex := posToIndex
    getIndexOfLineAbove := fun index =>
      posToIndex (indexToPos index).line (indexToPos index).character }

/-- Virtual file record; embeds the `VirtualFile` interface. -/
structure VirtualFile where
  offset : Nat
  filename : List Char
  filepath : List Char
  content : List Char
  extension : List Char
deriving DecidableEq, Repr

/-- Embeds `getExtension` (part_001 lines 201-203):
`fileName.split('.').pop()`. -/
def getExtension (fileName : List Char) : List Char :=
  (fileName.splitOn '.').getLastD []

/-- Embeds `String.prototype.trimEnd`: drop trailing whitespace. -/
def jsTrimEnd (s : List Char) : List Char :=
  (s.reverse.dropWhile Char.isWhitespace).reverse

/-- Embeds `String.prototype.slice(a, b)` on in-range indices. -/
def jsSlice (code : List Char) (a b : Nat) : List Char :=
  (code.take b).drop a

/-- One element of `code.matchAll(reFilenamesMakers)` (part_001 line 163):
the match offset `index`, the length of `match[0]`, and the captured filename
text `match[1]`.  The regex itself (`/^\/\/\s?@filename: (.+)$/mg`, part_001
line 160) is kept abstract: theorems quantify over every possible match list,
using only what `matchAll` guarantees (strictly increasing in-range offsets). -/
structure FileMatch where
  index : Nat
  len : Nat
  capture : List Char
deriving DecidableEq, Repr

/-- Main loop of `splitFiles` (part_001 lines 170-196): slice the text between
consecutive filename-directive matches, skip empty slices, and emit the final
segment when `index < code.length`. -/
def splitFilesLoop (code root : List Char) :
    List FileMatch → Nat → List Char → List VirtualFile
  | [], index, currentFileName =>
    if index < code.length then
      [⟨index, currentFileName, root ++ currentFileName, code.drop index,
        getExtension currentFileName⟩]
    else []
  | m :: ms, index, currentFileName =>
    let content := jsSlice code index m.index
    let rest := splitFilesLoop code root ms m.index (jsTrimEnd m.capture)
    if content = [] then rest
    else
      ⟨index, currentFileName, root ++ currentFileName, content,
        getExtension currentFileName⟩ :: rest

/-- Embeds `splitFiles` (part_001 lines 162-199), with the `matchAll` result
passed in as `fileMatches` (see `FileMatch`). -/
def splitFiles (code : List Char) (fileMatches : List FileMatch)
    (defaultFileName root : List Char) : List VirtualFile :=
  let allFilenames := fileMatches.map (fun m => jsTrimEnd m.capture)
  let currentFileName :=
    if defaultFileName ∈ allFilenames then "__index__.ts".toList
    else defaultFileName
  splitFilesLoop code root fileMatches 0 currentFileName

/-- Lexicographic comparison on character lists; models
`a.type.localeCompare(b.type) <= 0` for the ASCII record-kind names used by
the sort in `resolveNodePositions` (part_001 line 259). -/
def lexLe : List Char → List Char → Bool
  | [], _ => true
  | _ :: _, [] => false
  | a :: as, b :: bs => if a < b then true else if b < a then false else lexLe as bs

/-- Record before position resolution; embeds the fields of
`NodeWithoutPosition` that the engine itself reads: the kind name `type`,
`start` and `length` (payloads are opaque to the algorithms). -/
structure NodeWithoutPosition where
  type : List Char
  start : Int
  length : Int
deriving DecidableEq, Repr

/-- Record after position resolution; embeds `TwoslashNode` (the node plus the
`line`/`character` fields added by `Object.assign`). -/
structure TwoslashNode where
  type : List Char
  start : Int
  length : Int
  line : Nat
  character : Nat
deriving DecidableEq, Repr

/-- Comparator relation of the JS sort
`(a, b) => a.start - b.start || a.type.localeCompare(b.type)`
(part_001 line 259): ascending by start, ties by lexical kind name. -/
def nodeLe (a b : NodeWithoutPosition) : Prop :=
  a.start < b.start ∨ (a.start = b.start ∧ lexLe a.type b.type = true)

instance : DecidableRel nodeLe := fun a b =>
  inferInstanceAs (Decidable
    (a.start < b.start ∨ (a.start = b.start ∧ lexLe a.type b.type = true)))

/-- Same ordering read off the resolved records (the sort happens before the
positions are assigned, and assignment does not change `start` or `type`). -/
def resolvedLe (a b : TwoslashNode) : Prop :=
  a.start < b.start ∨ (a.start = b.start ∧ lexLe a.type b.type = true)

/-- Position assignment of part_001 line 262:
`Object.assign(node, indexToPos(node.start))`. -/
def assignPosition (indexToPos : Nat → Position) (n : NodeWithoutPosition) :
    TwoslashNode :=
  ⟨n.type, n.start, n.length, (indexToPos n.start.toNat).line,
    (indexToPos n.start.toNat).character⟩

/-- Base projection dropping the assigned position again. -/
def TwoslashNode.base (n : TwoslashNode) : NodeWithoutPosition :=
  ⟨n.type, n.start, n.length⟩

/-- Embeds `resolveNodePositions` (part_001 lines 250-265) in its
`indexToPos`-function overload: filter out invalidated records
(`node.start >= 0`), sort by the comparator of line 259, then assign
line/character coordinates. -/
def resolveNodePositions (nodes : List NodeWithoutPosition)
    (indexToPos : Nat → Position) : List TwoslashNode :=
  let resolved := List.insertionSort nodeLe
    (nodes.filter (fun node => 0 ≤ node.start))
  resolved.map (assignPosition indexToPos)

/-- Structured stand-in for `TwoslashError` (title/description/hint):
each constructor is one of the throw sites relevant to the claims, carrying
the data interpolated into its message. -/
inductive TwoslashErr
  | unknownPrimitive (type value : List Char)
  | invalidOptionValue (name key : List Char) (allowed : List (List Char))
  | mismatchedCutMarkers
  | unknownFlags (names : List (List Char))
  | incompatibleOptions
deriving DecidableEq, Repr

/-- JS primitive value produced by `parsePrimitive`; `num none` is `NaN`. -/
inductive JSPrim
  | num (v : Option Int)
  | str (s : List Char)
  | bool (b : Bool)
deriving DecidableEq, Repr

/-- Embeds `String.prototype.toLowerCase` on the ASCII strings involved. -/
def jsToLower (s : List Char) : List Char :=
  s.map Char.toLower

/-- Embeds the unary `+value` coercion of a string to a JS number, for the
integer-literal strings compiler options receive: optional sign and decimal
digits after trimmed whitespace, the empty string giving `0`, and `none`
(`NaN`) for everything else (fractional or exotic numeric literals also map
to `none`; no claim depends on their numeric value, only on the coercion
returning a value rather than raising). -/
def jsStringToNumber (s : List Char) : Option Int :=
  let t := (jsTrimEnd s.reverse).reverse
  let t := jsTrimEnd t
  if t = [] then some 0
  else
    let (sign, digits) : Int × List Char :=
      match t with
      | '-' :: rest => (-1, rest)
      | '+' :: rest => (1, rest)
      | _ => (1, t)
    if digits ≠ [] ∧ digits.all Char.isDigit then
      some (sign * (digits.foldl (fun acc c => acc * 10 + (c.toNat - 48)) 0 : Nat))
    else none

/-- Embeds `parsePrimitive` (part_001 lines 12-30).  The leading
`typeof value === type` test can only succeed for `type === 'string'` since
`value` is a string; the `switch` then coerces, and the throw is reached only
for an unrecognized `type`. -/
def parsePrimitive (value : List Char) (type : List Char) :
    Except TwoslashErr JSPrim :=
  if type = "string".toList then .ok (.str value)
  else if type = "number".toList then .ok (.num (jsStringToNumber value))
  else if type = "boolean".toList then
    .ok (.bool (jsToLower value = "true".toList || value = []))
  else .error (.unknownPrimitive type value)

/-- Embeds `getOptionValueFromMap` (part_001 lines 106-118): look the
lowercased key up in the option map and throw `Invalid inline compiler value`
when it is absent. -/
def getOptionValueFromMap (name key : List Char)
    (optMap : List (List Char × List Char)) : Except TwoslashErr (List Char) :=
  match optMap.lookup (jsToLower key) with
  | none => .error (.invalidOptionValue name key (optMap.map Prod.fst))
  | some result => .ok result

/-- One element of a `code.matchAll(re)` result as consumed by the cut
scanner: offset of the match and length of `match[0]`.  The four cut-marker
regexes (`reCutBefore`, `reCutAfter`, `reCutStart`, `reCutEnd`) live in the
repository's `regexp` module, which is not part of the provided sources, so
the scanner is embedded over arbitrary match lists. -/
structure CutMatch where
  index : Nat
  len : Nat
deriving DecidableEq, Repr

/-- Pairing loop of `findCutNotations` (part_001 lines 408-419): walk the
cut-start and cut-end matches in parallel, throwing `Mismatched cut markers`
at the first pair whose start comes after its end, and otherwise emitting the
range `[start.index, end.index + end[0].length + 1)`.  The uneven-length case
is unreachable in the source (guarded by the count check at line 401); it is
mapped to `.ok []` here. -/
def pairCutRanges : List CutMatch → List CutMatch → Except TwoslashErr (List Range)
  | [], _ => .ok []
  | _ :: _, [] => .ok []
  | s :: ss, e :: es =>
    if e.index < s.index then .error .mismatchedCutMarkers
    else (pairCutRanges ss es).map (fun rest => (s.index, e.index + e.len + 1) :: rest)

/-- Embeds `findCutNotations` (part_001 lines 385-421) over the match lists
of the four cut regexes (see `CutMatch`): cut-before erases from offset 0
through the last occurrence, cut-after erases from the first occurrence to
the end of the text, and cut-start/cut-end pairs must agree in count
(`Mismatched cut markers` otherwise) and are paired in order.  The source
pushes the cut-before/cut-after ranges before performing the count check;
since a throw discards the pushed ranges, checking first is observationally
identical. -/
def findCuts (codeLen : Nat) (cutBefore cutAfter cutStart cutEnd : List CutMatch) :
    Except TwoslashErr (List Range) :=
  let before : List Range :=
    match cutBefore.getLast? with
    | some last => [(0, last.index + last.len + 1)]
    | none => []
  let after : List Range :=
    match cutAfter.head? with
    | some first => [(first.index, codeLen)]
    | none => []
  if cutStart.length ≠ cutEnd.length then .error .mismatchedCutMarkers
  else (pairCutRanges cutStart cutEnd).map (fun pairs => before ++ after ++ pairs)

/-- Kind tag of a scanned directive; embeds the `type` discriminant of
`ParsedFlagNotation` (`'tag' | 'compilerOptions' | 'handbookOptions' |
'unknown'`, i.e. customTag / compilerOption / behaviorOption / unknown in the
spec's terminology). -/
inductive FlagType
  | tag
  | compilerOptions
  | handbookOptions
  | unknown
deriving DecidableEq, Repr

/-- Scanned directive as consumed by the apply-flags loop; embeds the fields
of `ParsedFlagNotation` the loop reads (`type`, `name`, `start`, `end`). -/
structure ParsedFlag where
  type : FlagType
  name : List Char
  start : Nat
  endPos : Nat
deriving DecidableEq, Repr

/-- Embeds the effect of the apply-flags loop (core.ts lines 84-107) on
`meta.removals`: each flag appends `[flag.start, flag.end]` — except that
`case 'unknown': continue` (lines 86-87) jumps to the next iteration before
the `meta.removals.push` at line 106, so unknown flags append nothing. -/
def applyFlagRemovals : List ParsedFlag → List Range → List Range
  | [], removals => removals
  | flag :: rest, removals =>
    match flag.type with
    | .unknown => applyFlagRemovals rest removals
    | _ => applyFlagRemovals rest (removals ++ [(flag.start, flag.endPos)])

/-- Embeds the unknown-flag validation (core.ts lines 109-118) together with
the removal accumulation: when validation is not suppressed and any scanned
flag is `unknown`, the run throws `Unknown inline compiler flags`; otherwise
the removal list collected by the loop is returned. -/
def applyFlagsStep (noErrorValidation : Bool) (flags : List ParsedFlag) :
    Except TwoslashErr (List Range) :=
  let removals := applyFlagRemovals flags []
  let unknownFlags := flags.filter (fun f => f.type = .unknown)
  if !noErrorValidation && !unknownFlags.isEmpty then
    .error (.unknownFlags (unknownFlags.map (fun f => f.name)))
  else .ok removals

/-- One observable step of a `twoslasher` run: calls into the external
type-checking backend (the virtual TS environment / language service) and
raised hard errors. -/
inductive PipelineStep
  | envCreate
  | createFile
  | getQuickInfo
  | getDiagnostics
  | updateFile
  | getEmitOutput
  | raiseIncompatibleOptions
deriving DecidableEq, Repr

/-- Steps that are calls into the type-checking backend. -/
def isBackendCall : PipelineStep → Bool
  | .raiseIncompatibleOptions => false
  | _ => true

/-- Embeds the orchestration order of `twoslasher` (core.ts lines 47-400) at
the level of backend calls and hard errors, for a run over `nFiles` supported
virtual files whose scanning raises no earlier error and whose collected
records trigger no validation error.  In source order: `getEnv` creates the
environment (line 121) — a backend call — before anything else; each file is
registered with `env.createFile` (line 169) and, unless `showEmit` is set,
mined for quick info (lines 176-275); diagnostics are fetched per file unless
`noErrors === true` (lines 287-291); only then does the `showEmit` block run,
and with `keepNotations` (modelled as `retainMarkers`) also set it throws
`Option 'showEmit' cannot be used with 'keepNotations'` (lines 329-336),
ending the run.  Without `retainMarkers` the emit path re-registers the
cleaned files and pulls the emit output (lines 337-382). -/
def twoslasherTrace (showEmit retainMarkers noErrors : Bool) (nFiles : Nat) :
    List PipelineStep :=
  .envCreate ::
    ((List.replicate nFiles
        (.createFile :: (if showEmit then [] else [.getQuickInfo]))).flatten
      ++ (if noErrors then [] else List.replicate nFiles .getDiagnostics)
      ++ (if showEmit then
            if retainMarkers then [.raiseIncompatibleOptions]
            else [.updateFile, .getEmitOutput]
          else []))

/-- Embeds the hover-collection loop of `twoslasher` (core.ts lines 183-192):
for each identifier span `[start, end, target]`, skip it when `start` lies in
a removal range (`isInRemoval`, line 184) or the caller-supplied predicate
declines it; otherwise ask the backend for quick info and append the returned
hover record, if any.  The backend call `getQuickInfo` is abstracted as the
function argument `quickInfo`. -/
def collectHoverNodes (identifiers : List (Nat × Nat × List Char))
    (removals : List Range) (shouldGetHoverInfo : List Char → Nat → Bool)
    (quickInfo : Nat → List Char → Option NodeWithoutPosition) :
    List NodeWithoutPosition :=
  identifiers.foldl
    (fun acc id =>
      if (isInRanges id.1 removals).isSome then acc
      else if !shouldGetHoverInfo id.2.2 id.1 then acc
      else
        match quickInfo id.1 id.2.2 with
        | some node => acc ++ [node]
        | none => acc)
    []

/-- Offset `i` lies in the union of a list of ranges, read half-open
(`[start, end)`, the spec's data model for `Range`); used to state the
coverage contract of `mergeRanges`. -/
def covered (rs : List Range) (i : Nat) : Prop :=
  ∃ r ∈ rs, r.1 ≤ i ∧ i < r.2

instance (rs : List Range) (i : Nat) : Decidable (covered rs i) :=
  inferInstanceAs (Decidable (∃ r ∈ rs, r.1 ≤ i ∧ i < r.2))

/-! ## Helper lemmas -/

/-- Mapping over an `Except` preserves and reflects errors. -/
theorem exceptMap_eq_error {ε α β : Type} (f : α → β) (x : Except ε α) (e : ε) :
    Except.map f x = .error e ↔ x = .error e := by
  cases x <;> simp [Except.map]

/-- Coalescing preserves the range invariant `start ≤ end`. -/
theorem mergeAccum_valid_le : ∀ (rs : List Range) (cur : Range),
    cur.1 ≤ cur.2 → (∀ r ∈ rs, r.1 ≤ r.2) →
    ∀ x ∈ mergeAccum cur rs, x.1 ≤ x.2
  | [], cur, hc, _, x, hx => by
    rw [mergeAccum] at hx
    simp only [List.mem_singleton] at hx
    exact hx ▸ hc
  | r :: rs, cur, hc, hr, x, hx => by
    rw [mergeAccum] at hx
    split at hx
    · exact mergeAccum_valid_le rs (cur.1, max cur.2 r.2)
        (le_trans hc (le_max_left _ _))
        (fun r' h' => hr r' (List.mem_cons_of_mem _ h')) x hx
    · rcases List.mem_cons.1 hx with rfl | hx'
      · exact hc
      · exact mergeAccum_valid_le rs r (hr r (List.mem_cons_self _ _))
          (fun r' h' => hr r' (List.mem_cons_of_mem _ h')) x hx'

/-- Merged ranges keep the range invariant `start ≤ end`. -/
theorem mergeRanges_valid_le (ranges : List Range)
    (h : ∀ r ∈ ranges, r.1 ≤ r.2) :
    ∀ x ∈ mergeRanges ranges, x.1 ≤ x.2 := by
  intro x hx
  unfold mergeRanges at hx
  rcases hs : List.insertionSort startLe ranges with _ | ⟨r, rs⟩ <;> rw [hs] at hx
  · simp at hx
  · have hmem : ∀ y ∈ r :: rs, y.1 ≤ y.2 := by
      intro y hy
      refine h y ((List.mem_insertionSort startLe).1 ?_)
      rw [hs]
      exact hy
    exact mergeAccum_valid_le rs r (hmem r (List.mem_cons_self _ _))
      (fun y hy => hmem y (List.mem_cons_of_mem _ hy)) x hx

/-- The descending-sorted merged removal ranges keep `start ≤ end`. -/
theorem sortedRemovalRanges_valid (removals : List Range)
    (h : ∀ r ∈ removals, r.1 ≤ r.2) :
    ∀ x ∈ sortedRemovalRanges removals, x.1 ≤ x.2 := by
  intro x hx
  exact mergeRanges_valid_le removals h x
    ((List.mem_insertionSort startGe).1 hx)

/-- On a well-formed range the source's natural-number difference agrees with
the spec's integer difference, so the two update rules coincide. -/
theorem removeUpdateNode_eq_spec (s e : Nat) (h : s ≤ e)
    (node : NodeStartLength) :
    removeUpdateNode s e node = specUpdateRecord s e node := by
  unfold removeUpdateNode specUpdateRecord
  rw [Nat.cast_sub h]

/-- Node component of the splice-and-update fold: it is exactly the fold of
the per-range record updates. -/
theorem removeFold_nodes : ∀ (rs : List Range) (code : List Char)
    (nodes : List NodeStartLength), (∀ r ∈ rs, r.1 ≤ r.2) →
    (rs.foldl (fun (acc : List Char × List NodeStartLength) remove =>
        (acc.1.take remove.1 ++ acc.1.drop remove.2,
         acc.2.map (removeUpdateNode remove.1 remove.2))) (code, nodes)).2 =
      rs.foldl (fun ns r => ns.map (specUpdateRecord r.1 r.2)) nodes
  | [], _, _, _ => rfl
  | r :: rs, code, nodes, h => by
    simp only [List.foldl_cons]
    have hfun : removeUpdateNode r.1 r.2 = specUpdateRecord r.1 r.2 :=
      funext (removeUpdateNode_eq_spec r.1 r.2 (h r (List.mem_cons_self _ _)))
    rw [removeFold_nodes rs _ _ (fun r' h' => h r' (List.mem_cons_of_mem _ h')),
      hfun]

/-- C1: for well-formed removal ranges, `removeCodeRanges` processes each
merged removed range `[s, e)` by applying, to every record, the rule "if
`start + length ≤ s` unchanged; else if `start < e` invalidate
(`start = -1`); else shift `start` down by `e - s`"; and on the concrete
example, removing `[2, 5)` from `"abcdefghij"` yields `"abfghij"`, the record
at `start = 6, length = 1` ends at `start = 3`, and the record at
`start = 3, length = 1` is invalidated (`start = -1`). -/
theorem removeCodeRanges_record_rule :
    (∀ (code : List Char) (removals : List Range)
        (nodes : List NodeStartLength),
      (∀ r ∈ removals, r.1 ≤ r.2) →
      (removeCodeRanges code removals nodes).nodes =
        (sortedRemovalRanges removals).foldl
          (fun ns r => ns.map (specUpdateRecord r.1 r.2)) nodes) ∧
    removeCodeRanges "abcdefghij".toList [(2, 5)] [⟨6, 1⟩, ⟨3, 1⟩] =
      ⟨"abfghij".toList, [(2, 5)], [⟨3, 1⟩, ⟨-1, 1⟩]⟩ := by
  constructor
  · intro code removals nodes h
    exact removeFold_nodes (sortedRemovalRanges removals) code nodes
      (sortedRemovalRanges_valid removals h)
  · decide

/-- C1 witness: the record-update rule applied to the concrete example input
of the claim. -/
theorem removeCodeRanges_record_rule_witness :
    (∀ r ∈ [((2 : Nat), (5 : Nat))], r.1 ≤ r.2) ∧
    (removeCodeRanges "abcdefghij".toList [(2, 5)] [⟨6, 1⟩, ⟨3, 1⟩]).nodes =
      (sortedRemovalRanges [(2, 5)]).foldl
        (fun ns r => ns.map (specUpdateRecord r.1 r.2)) [⟨6, 1⟩, ⟨3, 1⟩] :=
  ⟨by decide, removeCodeRanges_record_rule.1 _ _ _ (by decide)⟩

/-- Head comparison of the lexicographic order. -/
theorem lexLe_cons_iff (a b : Char) (as bs : List Char) :
    lexLe (a :: as) (b :: bs) = true ↔ a < b ∨ (a = b ∧ lexLe as bs = true) := by
  rcases lt_trichotomy a b with h | h | h
  · simp [lexLe, h]
  · subst h
    simp [lexLe, lt_irrefl]
  · rw [lexLe, if_neg (asymm h), if_pos h]
    simp only [Bool.false_eq_true, false_iff]
    rintro (h' | ⟨rfl, _⟩)
    · exact absurd h' (asymm h)
    · exact absurd h (lt_irrefl _)

/-- Totality of the lexicographic order. -/
theorem lexLe_total : ∀ a b : List Char, lexLe a b = true ∨ lexLe b a = true
  | [], _ => Or.inl rfl
  | _ :: _, [] => Or.inr rfl
  | a :: as, b :: bs => by
    rw [lexLe_cons_iff, lexLe_cons_iff]
    rcases lt_trichotomy a b with h | rfl | h
    · exact Or.inl (Or.inl h)
    · rcases lexLe_total as bs with ih | ih
      · exact Or.inl (Or.inr ⟨rfl, ih⟩)
      · exact Or.inr (Or.inr ⟨rfl, ih⟩)
    · exact Or.inr (Or.inl h)

/-- Transitivity of the lexicographic order. -/
theorem lexLe_trans : ∀ a b c : List Char,
    lexLe a b = true → lexLe b c = true → lexLe a c = true
  | [], _, _, _, _ => rfl
  | _ :: _, [], _, hab, _ => by simp [lexLe] at hab
  | _ :: _, _ :: _, [], _, hbc => by simp [lexLe] at hbc
  | a :: as, b :: bs, c :: cs, hab, hbc => by
    rw [lexLe_cons_iff] at hab hbc ⊢
    rcases hab with h1 | ⟨rfl, t1⟩
    · rcases hbc with h2 | ⟨rfl, t2⟩
      · exact Or.inl (lt_trans h1 h2)
      · exact Or.inl h1
    · rcases hbc with h2 | ⟨rfl, t2⟩
      · exact Or.inl h2
      · exact Or.inr ⟨rfl, lexLe_trans as bs cs t1 t2⟩

/-- Totality of the record-sort comparator. -/
theorem nodeLe_total : ∀ a b : NodeWithoutPosition, nodeLe a b ∨ nodeLe b a := by
  intro a b
  rcases lt_trichotomy a.start b.start with h | h | h
  · exact Or.inl (Or.inl h)
  · rcases lexLe_total a.type b.type with ht | ht
    · exact Or.inl (Or.inr ⟨h, ht⟩)
    · exact Or.inr (Or.inr ⟨h.symm, ht⟩)
  · exact Or.inr (Or.inl h)

/-- Transitivity of the record-sort comparator. -/
theorem nodeLe_trans : ∀ a b c : NodeWithoutPosition,
    nodeLe a b → nodeLe b c → nodeLe a c := by
  intro a b c hab hbc
  rcases hab with h1 | ⟨h1, t1⟩ <;> rcases hbc with h2 | ⟨h2, t2⟩
  · exact Or.inl (by omega)
  · exact Or.inl (by omega)
  · exact Or.inl (by omega)
  · exact Or.inr ⟨h1.trans h2, lexLe_trans _ _ _ t1 t2⟩

/-- C8: the resolved output of `resolveNodePositions` contains exactly the
records with `start ≥ 0` (a permutation of the filtered input — invalidated
records are dropped), and is sorted ascending by start offset with ties
broken by the lexical order on record kind names, so the output order is
deterministic. -/
theorem resolveNodePositions_filter_sort (nodes : List NodeWithoutPosition)
    (indexToPos : Nat → Position) :
    List.Perm ((resolveNodePositions nodes indexToPos).map TwoslashNode.base)
        (nodes.filter (fun n => 0 ≤ n.start)) ∧
    List.Sorted resolvedLe (resolveNodePositions nodes indexToPos) := by
  constructor
  · have hmap : (resolveNodePositions nodes indexToPos).map TwoslashNode.base =
        List.insertionSort nodeLe (nodes.filter (fun n => 0 ≤ n.start)) := by
      unfold resolveNodePositions
      rw [List.map_map]
      have hid : TwoslashNode.base ∘ assignPosition indexToPos = id :=
        funext (fun _ => rfl)
      rw [hid, List.map_id]
    rw [hmap]
    exact List.perm_insertionSort nodeLe _
  · haveI : IsTotal NodeWithoutPosition nodeLe := ⟨nodeLe_total⟩
    haveI : IsTrans NodeWithoutPosition nodeLe := ⟨nodeLe_trans⟩
    unfold resolveNodePositions
    exact List.Pairwise.map _ (fun _ _ h => h)
      (List.sorted_insertionSort nodeLe _)

/-- Sanity checks of the line decomposition against the JS regex behavior:
every `\n` terminates a kept line and the final `$` match appends an empty
line. -/
theorem jsLines_sanity :
    jsLines "ab\ncd".toList = ["ab\n".toList, "cd".toList, []] ∧
    jsLines "ab\n".toList = ["ab\n".toList, []] := by
  constructor <;> decide

/-- Line lengths of the lazy line decomposition sum to the text length plus
the pending accumulator. -/
theorem jsLinesAux_length_sum : ∀ (s cur : List Char),
    ((jsLinesAux cur s).map List.length).sum = cur.length + s.length
  | [], cur => by
    by_cases h : cur = [] <;> simp [jsLinesAux, h]
  | c :: rest, cur => by
    rw [jsLinesAux]
    by_cases h : c = '\n'
    · rw [if_pos h]
      have := jsLinesAux_length_sum rest []
      simp only [List.map_cons, List.sum_cons, this]
      simp
      omega
    · rw [if_neg h]
      have := jsLinesAux_length_sum rest (c :: cur)
      simp only [this, List.length_cons]
      omega

/-- Line lengths of the JS line decomposition sum to the text length. -/
theorem jsLines_length_sum (code : List Char) :
    ((jsLines code).map List.length).sum = code.length := by
  simpa using jsLinesAux_length_sum code []

/-- The line accumulator of the index-to-position walk only shifts the
resulting line number. -/
theorem indexToPosGo_shift : ∀ (ls : List (List Char)) (n ch : Nat),
    indexToPosGo ls n ch =
      ⟨n + (indexToPosGo ls 0 ch).line, (indexToPosGo ls 0 ch).character⟩
  | [], n, ch => by simp [indexToPosGo]
  | l :: ls, n, ch => by
    simp only [indexToPosGo]
    by_cases h : ch < l.length
    · simp [h]
    · simp only [if_neg h]
      rw [indexToPosGo_shift ls (n + 1) (ch - l.length),
        indexToPosGo_shift ls (0 + 1) (ch - l.length)]
      simp only [Position.mk.injEq]
      exact ⟨by omega, trivial⟩

/-- For a valid offset, the index-to-position walk lands on a real line, the
residual character is inside it, and line-length prefix sum plus residual
reconstructs the offset. -/
theorem indexToPosGo_correct : ∀ (ls : List (List Char)) (ch : Nat),
    ch < (ls.map List.length).sum →
    ((ls.take (indexToPosGo ls 0 ch).line).map List.length).sum
        + (indexToPosGo ls 0 ch).character = ch
      ∧ (indexToPosGo ls 0 ch).line < ls.length
      ∧ (indexToPosGo ls 0 ch).character <
          (ls.getD (indexToPosGo ls 0 ch).line []).length
  | [], ch, h => by simp at h
  | l :: ls, ch, h => by
    simp only [indexToPosGo]
    by_cases hc : ch < l.length
    · simp [hc]
    · rw [if_neg hc, indexToPosGo_shift ls (0 + 1) (ch - l.length)]
      have hlt : ch - l.length < (ls.map List.length).sum := by
        simp only [List.map_cons, List.sum_cons] at h
        omega
      obtain ⟨ih1, ih2, ih3⟩ := indexToPosGo_correct ls (ch - l.length) hlt
      refine ⟨?_, ?_, ?_⟩
      · have : 0 + 1 + (indexToPosGo ls 0 (ch - l.length)).line =
            (indexToPosGo ls 0 (ch - l.length)).line + 1 := by omega
        rw [this, List.take_succ_cons]
        simp only [List.map_cons, List.sum_cons]
        omega
      · simp only [List.length_cons]
        omega
      · have : 0 + 1 + (indexToPosGo ls 0 (ch - l.length)).line =
            (indexToPosGo ls 0 (ch - l.length)).line + 1 := by omega
        rw [this, List.getD_cons_succ]
        exact ih3

/-- Converse walk: the index built from a valid line/character pair by the
one-line-shifted prefix sum walks back to exactly that pair. -/
theorem indexToPosGo_of_pos : ∀ (ls : List (List Char)) (j ch : Nat),
    j < ls.length → ch < (ls.getD j []).length →
    indexToPosGo ls 0 (((ls.take j).map List.length).sum + ch) = ⟨j, ch⟩
  | [], j, ch, hj, _ => by simp at hj
  | l :: ls, 0, ch, _, hch => by
    simp only [List.getD_cons_zero] at hch
    simp [indexToPosGo, hch]
  | l :: ls, j + 1, ch, hj, hch => by
    simp only [List.getD_cons_succ] at hch
    have hj' : j < ls.length := by
      simp only [List.length_cons] at hj
      omega
    rw [List.take_succ_cons]
    simp only [List.map_cons, List.sum_cons, indexToPosGo]
    rw [if_neg (by omega)]
    have harg : l.length + ((ls.take j).map List.length).sum + ch - l.length
        = ((ls.take j).map List.length).sum + ch := by omega
    rw [harg, indexToPosGo_shift ls (0 + 1) _,
      indexToPosGo_of_pos ls j ch hj' hch]
    show Position.mk (0 + 1 + j) ch = Position.mk (j + 1) ch
    congr 1
    omega

/-- C2 counterexample: on the text `"ab\ncd"` the offset 3 (the `c`) is
valid, `indexToPos 3` is line 1 character 0, but
`posToIndex (indexToPos 3) = 0 ≠ 3` — the source's `posToIndex` sums line
lengths only up to `line - 1` (exclusive), so the claimed inverse laws fail. -/
theorem positionConverter_roundtrip_cex :
    (3 : Nat) < ("ab\ncd".toList).length ∧
    (createPositionConverter "ab\ncd".toList).posToIndex
        ((createPositionConverter "ab\ncd".toList).indexToPos 3).line
        ((createPositionConverter "ab\ncd".toList).indexToPos 3).character = 0 := by
  constructor
  · decide
  · decide

/-- C2 amended: because `posToIndex` sums only the first `line - 1` line
lengths, the converter's inverse laws hold with a one-line shift: for every
valid offset `i`, feeding `indexToPos i` back with its line incremented by
one recovers `i`, and every valid line/character pair fed through
`posToIndex (line + 1)` round-trips through `indexToPos` — so
`getIndexOfLineAbove` (which composes the two without the shift) maps an
index to the index at the same column one line above. -/
theorem positionConverter_shifted_inverse (code : List Char) :
    (∀ i, i < code.length →
      (createPositionConverter code).posToIndex
          (((createPositionConverter code).indexToPos i).line + 1)
          (((createPositionConverter code).indexToPos i).character) = i) ∧
    (∀ line ch, line < (createPositionConverter code).lines.length →
      ch < ((createPositionConverter code).lines.getD line []).length →
      (createPositionConverter code).indexToPos
          ((createPositionConverter code).posToIndex (line + 1) ch) =
        ⟨line, ch⟩) := by
  constructor
  · intro i hi
    have hi' : i < ((jsLines code).map List.length).sum := by
      rw [jsLines_length_sum]
      exact hi
    obtain ⟨h1, _, _⟩ := indexToPosGo_correct (jsLines code) i hi'
    show (((jsLines code).take
          ((indexToPosGo (jsLines code) 0 i).line + 1 - 1)).map List.length).sum
        + (indexToPosGo (jsLines code) 0 i).character = i
    simpa using h1
  · intro line ch hline hch
    show indexToPosGo (jsLines code) 0
        ((((jsLines code).take (line + 1 - 1)).map List.length).sum + ch) =
      ⟨line, ch⟩
    have := indexToPosGo_of_pos (jsLines code) line ch hline hch
    simpa using this

/-- C2 witness: the shifted inverse law at the valid offset 3 of `"ab\ncd"`. -/
theorem positionConverter_shifted_inverse_witness :
    (3 : Nat) < ("ab\ncd".toList).length ∧
    (createPositionConverter "ab\ncd".toList).posToIndex
        (((createPositionConverter "ab\ncd".toList).indexToPos 3).line + 1)
        (((createPositionConverter "ab\ncd".toList).indexToPos 3).character) = 3 :=
  ⟨by decide, (positionConverter_shifted_inverse "ab\ncd".toList).1 3 (by decide)⟩

/-- Splicing a middle slice back before the remaining text reconstructs the
tail: `code.slice(a, b) ++ code.slice(b) = code.slice(a)` for `a ≤ b`. -/
theorem take_drop_splice (code : List Char) (a b : Nat) (hab : a ≤ b)
    (hb : b ≤ code.length) :
    (code.take b).drop a ++ code.drop b = code.drop a := by
  conv_rhs => rw [← List.take_append_drop b code]
  rw [List.drop_append_of_le_length]
  rw [List.length_take]
  omega

/-- Invariants of the `splitFiles` slicing loop: all emitted contents are
nonempty slices of the input found at their recorded offsets, offsets grow
strictly, and the concatenation of the contents is exactly the input from the
loop's current index on. -/
theorem splitFilesLoop_spec : ∀ (ms : List FileMatch) (idx : Nat)
    (name code root : List Char),
    idx ≤ code.length →
    (∀ m ∈ ms, idx ≤ m.index ∧ m.index ≤ code.length) →
    List.Pairwise (fun a b => a.index < b.index) ms →
    (∀ f ∈ splitFilesLoop code root ms idx name, f.content ≠ [] ∧
        idx ≤ f.offset ∧
        f.content = (code.drop f.offset).take f.content.length) ∧
    List.Pairwise (fun a b : VirtualFile => a.offset < b.offset)
        (splitFilesLoop code root ms idx name) ∧
    ((splitFilesLoop code root ms idx name).map
        (fun f => f.content)).flatten = code.drop idx
  | [], idx, name, code, root, hidx, _, _ => by
    rw [splitFilesLoop]
    by_cases h : idx < code.length
    · rw [if_pos h]
      refine ⟨?_, ?_, ?_⟩
      · intro f hf
        rcases List.mem_singleton.1 hf with rfl
        refine ⟨?_, le_refl _, ?_⟩
        · rw [ne_eq, List.drop_eq_nil_iff]
          omega
        · rw [List.take_length]
      · exact List.pairwise_singleton _ _
      · simp
    · rw [if_neg h]
      refine ⟨by simp, List.Pairwise.nil, ?_⟩
      rw [List.map_nil, List.flatten_nil, Eq.comm, List.drop_eq_nil_iff]
      omega
  | m :: ms, idx, name, code, root, hidx, hbound, hsorted => by
    have hi : idx ≤ m.index := (hbound m (List.mem_cons_self _ _)).1
    have hm : m.index ≤ code.length := (hbound m (List.mem_cons_self _ _)).2
    have hbound' : ∀ m' ∈ ms, m.index ≤ m'.index ∧ m'.index ≤ code.length :=
      fun m' hm' => ⟨le_of_lt (List.rel_of_pairwise_cons hsorted hm'),
        (hbound m' (List.mem_cons_of_mem _ hm')).2⟩
    obtain ⟨ih1, ih2, ih3⟩ := splitFilesLoop_spec ms m.index
      (jsTrimEnd m.capture) code root hm hbound' hsorted.tail
    have hcontent : jsSlice code idx m.index =
        ((code.drop idx).take (m.index - idx)) := by
      rw [jsSlice, List.drop_take]
    have hclen : (jsSlice code idx m.index).length = m.index - idx := by
      rw [hcontent, List.length_take, List.length_drop]
      omega
    rw [splitFilesLoop]
    by_cases h : jsSlice code idx m.index = []
    · rw [if_pos h]
      have hidxm : idx = m.index := by
        have := hclen
        rw [h] at this
        simp only [List.length_nil] at this
        omega
      refine ⟨fun f hf => ?_, ih2, ?_⟩
      · obtain ⟨h1, h2, h3⟩ := ih1 f hf
        exact ⟨h1, hidxm ▸ h2, h3⟩
      · rw [ih3, hidxm]
    · rw [if_neg h]
      have hlt : idx < m.index := by
        rcases Nat.lt_or_ge idx m.index with h' | h'
        · exact h'
        · exfalso
          apply h
          rw [hcontent]
          have : m.index - idx = 0 := by omega
          rw [this, List.take_zero]
      refine ⟨?_, ?_, ?_⟩
      · intro f hf
        rcases List.mem_cons.1 hf with rfl | hf'
        · refine ⟨h, le_refl _, ?_⟩
          show jsSlice code idx m.index =
            (code.drop idx).take (jsSlice code idx m.index).length
          rw [hclen, hcontent]
        · obtain ⟨h1, h2, h3⟩ := ih1 f hf'
          exact ⟨h1, le_trans (le_of_lt hlt) h2, h3⟩
      · refine List.Pairwise.cons ?_ ih2
        intro f hf
        show idx < f.offset
        exact lt_of_lt_of_le hlt (ih1 f hf).2.1
      · show jsSlice code idx m.index ++
            ((splitFilesLoop code root ms m.index (jsTrimEnd m.capture)).map
              (fun f => f.content)).flatten = code.drop idx
        rw [ih3, jsSlice, take_drop_splice code idx m.index hi hm]

/-- C9: the virtual files of `splitFiles` partition the input exactly: every
file's content is a nonempty slice of the input found at the file's offset,
offsets are strictly increasing, and the concatenation of all contents in
order is the original input — empty segments produce no file and lose no
text. -/
theorem splitFiles_partition (code : List Char) (fileMatches : List FileMatch)
    (defaultFileName root : List Char)
    (hsorted : List.Pairwise (fun a b => a.index < b.index) fileMatches)
    (hbound : ∀ m ∈ fileMatches, m.index ≤ code.length) :
    (∀ f ∈ splitFiles code fileMatches defaultFileName root,
      f.content ≠ [] ∧
      f.content = (code.drop f.offset).take f.content.length) ∧
    List.Pairwise (fun a b : VirtualFile => a.offset < b.offset)
        (splitFiles code fileMatches defaultFileName root) ∧
    ((splitFiles code fileMatches defaultFileName root).map
        (fun f => f.content)).flatten = code := by
  obtain ⟨h1, h2, h3⟩ := splitFilesLoop_spec fileMatches 0
    (if defaultFileName ∈ fileMatches.map (fun m => jsTrimEnd m.capture)
      then "__index__.ts".toList else defaultFileName) code root
    (Nat.zero_le _) (fun m hm => ⟨Nat.zero_le _, hbound m hm⟩) hsorted
  refine ⟨fun f hf => ?_, h2, ?_⟩
  · obtain ⟨hne, _, heq⟩ := h1 f hf
    exact ⟨hne, heq⟩
  · show (List.map (fun f => f.content)
        (splitFilesLoop code root fileMatches 0
          (if defaultFileName ∈ List.map (fun m => jsTrimEnd m.capture) fileMatches
            then "__index__.ts".toList else defaultFileName))).flatten = code
    rw [h3, List.drop_zero]

/-- C9 witness: the partition property at a concrete input with one filename
directive match. -/
theorem splitFiles_partition_witness :
    List.Pairwise (fun a b : FileMatch => a.index < b.index)
        [⟨3, 2, "b.ts".toList⟩] ∧
    (∀ m ∈ [(⟨3, 2, "b.ts".toList⟩ : FileMatch)],
      m.index ≤ ("abcdef".toList).length) ∧
    ((splitFiles "abcdef".toList [⟨3, 2, "b.ts".toList⟩]
        "index.ts".toList "/".toList).map (fun f => f.content)).flatten =
      "abcdef".toList :=
  ⟨List.pairwise_singleton _ _, by decide,
    (splitFiles_partition "abcdef".toList [⟨3, 2, "b.ts".toList⟩]
      "index.ts".toList "/".toList (List.pairwise_singleton _ _)
      (by decide)).2.2⟩

/-- Cover membership splits over a cons. -/
theorem covered_cons (x : Range) (l : List Range) (i : Nat) :
    covered (x :: l) i ↔ (x.1 ≤ i ∧ i < x.2) ∨ covered l i := by
  simp [covered, List.mem_cons, or_and_right, exists_or]

/-- Cover membership is invariant under permutation. -/
theorem covered_perm {l l' : List Range} (h : List.Perm l l') (i : Nat) :
    covered l i ↔ covered l' i := by
  unfold covered
  constructor
  · rintro ⟨r, hr, hi⟩
    exact ⟨r, h.subset hr, hi⟩
  · rintro ⟨r, hr, hi⟩
    exact ⟨r, h.symm.subset hr, hi⟩

/-- Coalescing preserves the strict range invariant `start < end`. -/
theorem mergeAccum_valid_lt : ∀ (rs : List Range) (cur : Range),
    cur.1 < cur.2 → (∀ r ∈ rs, r.1 < r.2) →
    ∀ x ∈ mergeAccum cur rs, x.1 < x.2
  | [], cur, hc, _, x, hx => by
    rw [mergeAccum] at hx
    simp only [List.mem_singleton] at hx
    exact hx ▸ hc
  | r :: rs, cur, hc, hr, x, hx => by
    rw [mergeAccum] at hx
    split at hx
    · exact mergeAccum_valid_lt rs (cur.1, max cur.2 r.2)
        (lt_of_lt_of_le hc (le_max_left _ _))
        (fun r' h' => hr r' (List.mem_cons_of_mem _ h')) x hx
    · rcases List.mem_cons.1 hx with rfl | hx'
      · exact hc
      · exact mergeAccum_valid_lt rs r (hr r (List.mem_cons_self _ _))
          (fun r' h' => hr r' (List.mem_cons_of_mem _ h')) x hx'

/-- Every range emitted by the coalescing loop starts at or after any lower
bound on the starts of the pending input. -/
theorem mergeAccum_start_lb : ∀ (rs : List Range) (cur : Range) (lb : Nat),
    lb ≤ cur.1 → (∀ r ∈ rs, lb ≤ r.1) →
    ∀ x ∈ mergeAccum cur rs, lb ≤ x.1
  | [], cur, lb, hc, _, x, hx => by
    rw [mergeAccum] at hx
    simp only [List.mem_singleton] at hx
    exact hx ▸ hc
  | r :: rs, cur, lb, hc, hr, x, hx => by
    rw [mergeAccum] at hx
    split at hx
    · exact mergeAccum_start_lb rs (cur.1, max cur.2 r.2) lb hc
        (fun r' h' => hr r' (List.mem_cons_of_mem _ h')) x hx
    · rcases List.mem_cons.1 hx with rfl | hx'
      · exact hc
      · exact mergeAccum_start_lb rs r lb (hr r (List.mem_cons_self _ _))
          (fun r' h' => hr r' (List.mem_cons_of_mem _ h')) x hx'

/-- On start-sorted input the coalescing loop produces pairwise-separated
ranges: every later range starts strictly after an earlier one ends. -/
theorem mergeAccum_gap : ∀ (rs : List Range) (cur : Range),
    List.Pairwise startLe (cur :: rs) →
    List.Pairwise (fun a b : Range => a.2 < b.1) (mergeAccum cur rs)
  | [], cur, _ => by
    rw [mergeAccum]
    exact List.pairwise_singleton _ _
  | r :: rs, cur, hsort => by
    rw [mergeAccum]
    split
    · refine mergeAccum_gap rs (cur.1, max cur.2 r.2) ?_
      refine List.Pairwise.cons ?_ hsort.tail.tail
      intro r' hr'
      exact (List.rel_of_pairwise_cons hsort) (List.mem_cons_of_mem _ hr')
    · next hcond =>
      refine List.Pairwise.cons ?_ (mergeAccum_gap rs r hsort.tail)
      intro x hx
      have hlb : r.1 ≤ x.1 := mergeAccum_start_lb rs r r.1 (le_refl _)
        (fun r' hr' => List.rel_of_pairwise_cons hsort.tail hr') x hx
      omega

/-- On start-sorted input, coalescing preserves the covered set of offsets. -/
theorem mergeAccum_cover : ∀ (rs : List Range) (cur : Range),
    List.Pairwise startLe (cur :: rs) →
    ∀ i, (covered (mergeAccum cur rs) i ↔ covered (cur :: rs) i)
  | [], cur, _, i => by rw [mergeAccum]
  | r :: rs, cur, hsort, i => by
    rw [mergeAccum]
    split
    · next hcond =>
      have hsort' : List.Pairwise startLe ((cur.1, max cur.2 r.2) :: rs) := by
        refine List.Pairwise.cons ?_ hsort.tail.tail
        intro r' hr'
        exact (List.rel_of_pairwise_cons hsort) (List.mem_cons_of_mem _ hr')
      rw [mergeAccum_cover rs (cur.1, max cur.2 r.2) hsort' i]
      have hcr : cur.1 ≤ r.1 :=
        List.rel_of_pairwise_cons hsort (List.mem_cons_self _ _)
      rw [covered_cons, covered_cons, covered_cons]
      constructor
      · rintro (⟨h1, h2⟩ | hC)
        · rcases Nat.lt_or_ge i cur.2 with h' | h'
          · exact Or.inl ⟨h1, h'⟩
          · refine Or.inr (Or.inl ⟨by omega, by omega⟩)
        · exact Or.inr (Or.inr hC)
      · rintro (⟨h1, h2⟩ | (⟨h1, h2⟩ | hC))
        · exact Or.inl ⟨h1, by omega⟩
        · exact Or.inl ⟨by omega, by omega⟩
        · exact Or.inr hC
    · next hcond =>
      rw [covered_cons, covered_cons,
        mergeAccum_cover rs r hsort.tail i, covered_cons]

/-- Pigeonhole for separated covers: a pairwise-separated list of nonempty
ranges is no longer than any list of ranges covering the same offsets. -/
theorem cover_length_le (out c : List Range)
    (hgap : List.Pairwise (fun a b : Range => a.2 < b.1) out)
    (hne : ∀ r ∈ out, r.1 < r.2)
    (hcov : ∀ i, covered out i ↔ covered c i) :
    out.length ≤ c.length := by
  have hexists : ∀ k : Fin out.length, ∃ j : Fin c.length,
      (c.get j).1 ≤ (out.get k).1 ∧ (out.get k).1 < (c.get j).2 := by
    intro k
    have hc : covered c ((out.get k).1) := by
      rw [← hcov]
      exact ⟨out.get k, List.get_mem _ _ _, le_refl _,
        hne _ (List.get_mem _ _ _)⟩
    obtain ⟨r, hr, h1, h2⟩ := hc
    obtain ⟨j, hj⟩ := List.mem_iff_get.1 hr
    exact ⟨j, hj ▸ h1, hj ▸ h2⟩
  choose φ hφ using hexists
  have key : ∀ k k' : Fin out.length, k < k' → φ k ≠ φ k' := by
    intro k k' hlt heq
    have hgapk : (out.get k).2 < (out.get k').1 :=
      List.pairwise_iff_get.1 hgap k k' hlt
    have h1 := hφ k
    have h2 := hφ k'
    rw [heq] at h1
    have hnek : (out.get k).1 < (out.get k).2 := hne _ (List.get_mem _ _ _)
    have hcovek : covered c ((out.get k).2) := by
      refine ⟨c.get (φ k'), List.get_mem _ _ _, ?_, ?_⟩ <;> omega
    have hout : covered out ((out.get k).2) := (hcov _).2 hcovek
    obtain ⟨y, hy, hy1, hy2⟩ := hout
    obtain ⟨m, hm⟩ := List.mem_iff_get.1 hy
    subst hm
    rcases lt_trichotomy m k with hmk | hmk | hmk
    · have := List.pairwise_iff_get.1 hgap m k hmk
      omega
    · subst hmk
      omega
    · have := List.pairwise_iff_get.1 hgap k m hmk
      omega
  have hinj : Function.Injective φ := by
    intro k k' heq
    rcases lt_trichotomy k k' with h | h | h
    · exact absurd heq (key k k' h)
    · exact h
    · exact absurd heq.symm (key k' k h)
  calc out.length = Fintype.card (Fin out.length) := (Fintype.card_fin _).symm
    _ ≤ Fintype.card (Fin c.length) := Fintype.card_le_of_injective φ hinj
    _ = c.length := Fintype.card_fin _

/-- C7 counterexample: the single empty range `[3, 3)` satisfies the claim's
`start ≤ end` hypothesis, yet `mergeRanges` keeps it, producing a one-element
list although the empty list covers the same (empty) set of offsets — so the
output is not minimal in length among same-union covers. -/
theorem mergeRanges_not_minimal_on_empty_ranges :
    (∀ r ∈ [((3 : Nat), (3 : Nat))], r.1 ≤ r.2) ∧
    (∀ i, covered ([] : List Range) i ↔ covered [((3 : Nat), (3 : Nat))] i) ∧
    ([] : List Range).length < (mergeRanges [((3 : Nat), (3 : Nat))]).length := by
  refine ⟨by decide, ?_, by decide⟩
  intro i
  rw [covered_cons]
  simp [covered]

/-- C7 amended: for every list of **nonempty** ranges (`start < end`),
`mergeRanges` returns a list sorted ascending by start whose ranges are
pairwise separated (every later range starts strictly after an earlier one
ends), whose union of covered offsets equals the union of the inputs, and
which is minimal in length among all range lists covering that same union.
(For inputs with `start = end` the empty range is kept verbatim and
minimality fails, see the counterexample.) -/
theorem mergeRanges_minimal_disjoint_cover (ranges : List Range)
    (h : ∀ r ∈ ranges, r.1 < r.2) :
    List.Pairwise startLe (mergeRanges ranges) ∧
    List.Pairwise (fun a b : Range => a.2 < b.1) (mergeRanges ranges) ∧
    (∀ i, covered (mergeRanges ranges) i ↔ covered ranges i) ∧
    (∀ c : List Range, (∀ i, covered c i ↔ covered ranges i) →
      (mergeRanges ranges).length ≤ c.length) := by
  have hperm := List.perm_insertionSort startLe ranges
  have hsorted : List.Pairwise startLe (List.insertionSort startLe ranges) :=
    List.sorted_insertionSort startLe ranges
  rcases hs : List.insertionSort startLe ranges with _ | ⟨r0, rs⟩
  · have hranges : ranges = [] := by
      rw [hs] at hperm
      exact (List.Perm.nil_eq hperm).symm
    subst hranges
    have hmr : mergeRanges ([] : List Range) = [] := rfl
    rw [hmr]
    exact ⟨List.Pairwise.nil, List.Pairwise.nil, fun _ => Iff.rfl,
      fun _ _ => Nat.zero_le _⟩
  · rw [hs] at hperm hsorted
    have hmr : mergeRanges ranges = mergeAccum r0 rs := by
      unfold mergeRanges
      rw [hs]
    have hvalid : ∀ r ∈ mergeAccum r0 rs, r.1 < r.2 := by
      have hmem : ∀ y ∈ r0 :: rs, y.1 < y.2 := fun y hy => h y (hperm.subset hy)
      exact mergeAccum_valid_lt rs r0 (hmem r0 (List.mem_cons_self _ _))
        (fun y hy => hmem y (List.mem_cons_of_mem _ hy))
    have hgap : List.Pairwise (fun a b : Range => a.2 < b.1)
        (mergeAccum r0 rs) := mergeAccum_gap rs r0 hsorted
    have hcover : ∀ i, covered (mergeAccum r0 rs) i ↔ covered ranges i := by
      intro i
      rw [mergeAccum_cover rs r0 hsorted i]
      exact covered_perm hperm i
    rw [hmr]
    refine ⟨?_, hgap, hcover, ?_⟩
    · refine List.Pairwise.imp_of_mem ?_ hgap
      intro a b ha _ hab
      have := hvalid a ha
      show a.1 ≤ b.1
      omega
    · intro c hc
      refine cover_length_le (mergeAccum r0 rs) c hgap hvalid ?_
      intro i
      rw [hcover i, ← hc i]

/-- C7 witness: the amended cover properties at the concrete input
`[(0, 2), (1, 3), (5, 6)]` of nonempty ranges. -/
theorem mergeRanges_minimal_disjoint_cover_witness :
    (∀ r ∈ [((0 : Nat), (2 : Nat)), (1, 3), (5, 6)], r.1 < r.2) ∧
    (List.Pairwise startLe (mergeRanges [((0 : Nat), (2 : Nat)), (1, 3), (5, 6)]) ∧
     List.Pairwise (fun a b : Range => a.2 < b.1)
        (mergeRanges [((0 : Nat), (2 : Nat)), (1, 3), (5, 6)]) ∧
     (∀ i, covered (mergeRanges [((0 : Nat), (2 : Nat)), (1, 3), (5, 6)]) i ↔
        covered [((0 : Nat), (2 : Nat)), (1, 3), (5, 6)] i) ∧
     (∀ c : List Range,
        (∀ i, covered c i ↔ covered [((0 : Nat), (2 : Nat)), (1, 3), (5, 6)] i) →
        (mergeRanges [((0 : Nat), (2 : Nat)), (1, 3), (5, 6)]).length ≤ c.length)) :=
  ⟨by decide, mergeRanges_minimal_disjoint_cover _ (by decide)⟩

/-! ## Claim theorems -/

/-- C10: range membership is endpoint-inclusive — `isInRange(i, [s, e])` holds
exactly when `s ≤ i ∧ i ≤ e` — and consequently an identifier starting exactly
at a removal range's end offset is skipped by the hover-collection loop
(it contributes nothing to the collected nodes). -/
theorem isInRange_inclusive_and_hover_skip :
    (∀ i s e : Nat, isInRange i (s, e) = true ↔ s ≤ i ∧ i ≤ e) ∧
    (∀ (id : Nat × Nat × List Char) (ids : List (Nat × Nat × List Char))
        (removals : List Range) (shouldGetHoverInfo : List Char → Nat → Bool)
        (quickInfo : Nat → List Char → Option NodeWithoutPosition),
      (∃ r ∈ removals, r.1 ≤ r.2 ∧ id.1 = r.2) →
      collectHoverNodes (id :: ids) removals shouldGetHoverInfo quickInfo =
        collectHoverNodes ids removals shouldGetHoverInfo quickInfo) := by
  constructor
  · intro i s e
    simp [isInRange]
  · intro id ids removals shouldGet qi h
    have hsome : (isInRanges id.1 removals).isSome = true := by
      rcases h with ⟨r, hr, hle, heq⟩
      rw [isInRanges, List.find?_isSome]
      refine ⟨r, hr, ?_⟩
      simp [isInRange, heq, hle]
    simp [collectHoverNodes, hsome]

/-- C10 witness: the theorem applied to an identifier at offset 5, which is
the end offset of the removal range `[2, 5]`. -/
theorem isInRange_inclusive_and_hover_skip_witness :
    (∃ r ∈ [((2 : Nat), (5 : Nat))],
        r.1 ≤ r.2 ∧ (((5 : Nat), (6 : Nat), "x".toList) : Nat × Nat × List Char).1 = r.2) ∧
    collectHoverNodes [((5 : Nat), (6 : Nat), "x".toList)] [(2, 5)]
        (fun _ _ => true) (fun _ _ => none) =
      collectHoverNodes [] [(2, 5)] (fun _ _ => true) (fun _ _ => none) :=
  ⟨by decide, isInRange_inclusive_and_hover_skip.2 _ _ _ _ _ (by decide)⟩

/-- C3 counterexample: a directive classified `unknown`, with validation
suppressed, does **not** get its span `[0, 5)` appended to the removal list —
the scan succeeds and returns an empty removal list, so the directive is not
erased, contradicting the claim that every directive's span is appended. -/
theorem unknownFlag_span_not_removed :
    applyFlagsStep true [⟨.unknown, "foo".toList, 0, 5⟩] = .ok [] ∧
    ((0, 5) : Range) ∉ applyFlagRemovals [⟨.unknown, "foo".toList, 0, 5⟩] [] := by
  exact ⟨rfl, by decide⟩

/-- C3 amended: the apply-flags loop appends the span `[start, end)` of every
scanned directive classified customTag, compilerOption or behaviorOption, in
scan order, but skips directives classified `unknown` (their `continue`
bypasses the push), so unknown directives are not erased. -/
theorem applyFlagRemovals_skips_unknown (flags : List ParsedFlag)
    (removals : List Range) :
    applyFlagRemovals flags removals =
      removals ++ (flags.filter (fun f => f.type ≠ FlagType.unknown)).map
        (fun f => (f.start, f.endPos)) := by
  induction flags generalizing removals with
  | nil => simp [applyFlagRemovals]
  | cons f fs ih =>
    cases htype : f.type <;>
      simp [applyFlagRemovals, htype, ih, List.filter_cons]

/-- C4 counterexample: with both `showEmit` and `keepNotations` set (and one
registered file, diagnostics enabled), the run's trace contains the backend
calls `envCreate`, `createFile` and `getDiagnostics` **before** the
`IncompatibleOptions` error is raised, contradicting the claim that the error
precedes any backend call. -/
theorem twoslasherTrace_backend_before_raise :
    twoslasherTrace true true false 1 =
      [.envCreate, .createFile, .getDiagnostics, .raiseIncompatibleOptions] ∧
    isBackendCall .envCreate = true :=
  ⟨rfl, rfl⟩

/-- C4 amended: whenever both `showEmit` and `keepNotations` are enabled (and
no earlier scanning/validation error fires), the run always raises
`IncompatibleOptions` and this raise ends the run — but it happens only after
the backend environment has been created (and the files registered and
diagnostics fetched), not before the first backend call. -/
theorem twoslasherTrace_raises_after_backend (noErrors : Bool) (nFiles : Nat) :
    ∃ pre, twoslasherTrace true true noErrors nFiles =
        pre ++ [PipelineStep.raiseIncompatibleOptions] ∧
      PipelineStep.envCreate ∈ pre ∧
      isBackendCall PipelineStep.envCreate = true := by
  refine ⟨PipelineStep.envCreate ::
    ((List.replicate nFiles ([PipelineStep.createFile] : List PipelineStep)).flatten
      ++ (if noErrors then [] else List.replicate nFiles PipelineStep.getDiagnostics)),
    ?_, by simp, rfl⟩
  simp [twoslasherTrace]

/-- C5 counterexample: primitive coercion silently produces a value for
unparsable input — `+('abc')` for a number option yields `NaN` (no error) and
`'maybe'` for a boolean option yields `false` (no error) — contradicting the
claim that such values always raise a hard error. -/
theorem parsePrimitive_silent_on_unparsable :
    parsePrimitive "abc".toList "number".toList = .ok (.num none) ∧
    parsePrimitive "maybe".toList "boolean".toList = .ok (.bool false) :=
  ⟨rfl, rfl⟩

/-- C5 amended: an enumerated-map option value outside the allowed set always
raises the hard error naming the option and the received value, exactly when
the lowercased value is absent from the map; but for the primitive kinds
`number`, `string` and `boolean`, coercion never raises — unparsable numbers
silently become `NaN` and non-`true` booleans become `false`; `parsePrimitive`
throws only for an unrecognized primitive kind. -/
theorem primitiveCoercion_amended :
    (∀ value type, type = "number".toList ∨ type = "string".toList ∨
        type = "boolean".toList → ∃ r, parsePrimitive value type = .ok r) ∧
    (∀ name key optMap,
      getOptionValueFromMap name key optMap =
          .error (.invalidOptionValue name key (optMap.map Prod.fst)) ↔
        optMap.lookup (jsToLower key) = none) := by
  constructor
  · rintro value type (rfl | rfl | rfl)
    · exact ⟨.num (jsStringToNumber value), by
        unfold parsePrimitive
        rw [if_neg (by decide), if_pos rfl]⟩
    · exact ⟨.str value, by
        unfold parsePrimitive
        rw [if_pos rfl]⟩
    · exact ⟨.bool (decide (jsToLower value = "true".toList) || decide (value = [])), by
        unfold parsePrimitive
        rw [if_neg (by decide), if_neg (by decide), if_pos rfl]⟩
  · intro name key optMap
    unfold getOptionValueFromMap
    cases h : optMap.lookup (jsToLower key) <;> simp

/-- C5 witness: the amended theorem applied to the concrete value `99` of
kind `number`, which coerces without error. -/
theorem primitiveCoercion_amended_witness :
    ("number".toList = "number".toList ∨ "number".toList = "string".toList ∨
        "number".toList = "boolean".toList) ∧
    ∃ r, parsePrimitive "99".toList "number".toList = .ok r :=
  ⟨Or.inl rfl, primitiveCoercion_amended.1 "99".toList "number".toList (Or.inl rfl)⟩

/-- Error characterization of the cut-start/cut-end pairing loop. -/
theorem pairCutRanges_error_iff : ∀ (cs ce : List CutMatch),
    pairCutRanges cs ce = .error .mismatchedCutMarkers ↔
      ∃ i, i < cs.length ∧ i < ce.length ∧
        (ce.getD i ⟨0, 0⟩).index < (cs.getD i ⟨0, 0⟩).index
  | [], ce => by simp [pairCutRanges]
  | c :: cs, [] => by simp [pairCutRanges]
  | s :: ss, e :: es => by
    rw [pairCutRanges]
    by_cases h : e.index < s.index
    · simp only [if_pos h]
      constructor
      · intro _
        exact ⟨0, by simp, by simp, by simpa using h⟩
      · intro _
        trivial
    · rw [if_neg h, exceptMap_eq_error, pairCutRanges_error_iff ss es]
      constructor
      · rintro ⟨i, h1, h2, h3⟩
        exact ⟨i + 1, by simpa using h1, by simpa using h2, by simpa using h3⟩
      · rintro ⟨i, h1, h2, h3⟩
        match i with
        | 0 => exact absurd (by simpa using h3) h
        | j + 1 =>
          exact ⟨j, by simpa using h1, by simpa using h2, by simpa using h3⟩

/-- C6: the cut scanner raises `MismatchedCutMarkers` exactly when the
cut-start and cut-end marker counts differ or some i-th cut-start occurs
after its i-th cut-end — regardless of the content of the matches — and with
equal counts in correct order it raises no such error. -/
theorem findCuts_mismatchedCutMarkers_iff (codeLen : Nat)
    (cutBefore cutAfter cutStart cutEnd : List CutMatch) :
    findCuts codeLen cutBefore cutAfter cutStart cutEnd =
        .error .mismatchedCutMarkers ↔
      cutStart.length ≠ cutEnd.length ∨
        ∃ i, i < cutStart.length ∧ i < cutEnd.length ∧
          (cutEnd.getD i ⟨0, 0⟩).index < (cutStart.getD i ⟨0, 0⟩).index := by
  unfold findCuts
  by_cases h : cutStart.length = cutEnd.length
  · rw [if_neg (by simp [h]), exceptMap_eq_error, pairCutRanges_error_iff]
    simp [h]
  · rw [if_pos h]
    simp [h]

end Twoslashes
